import Mathlib

set_option maxRecDepth 100000

/-!
Verification of the single-pass (Singlepass) compiler specification against
the repository sources.

The repository sources under verification are:
* `src/examples/compiler_singlepass_softfloat64.rs` — the soft-float example
  and test harness: the wat programs (`add`, `add20`, `add20r`, binop / cmpop /
  unop / demote test functions) and the SSE2 reference operations
  (`_max_f64`, `_min_f64`, `_eq_f64`, …, `_nearest_f64`, …, `_demote_f64`).
* `src/lib/c-api/src/wasm_c_api/mod.rs` — documentation-only module list.

The single-pass code generator, the engine/linker and the soft-float
routines themselves are not present under `src/`; where a claim depends on
them they are modelled from the specification (each such definition carries
a doc comment starting with "Modelled from the spec:").

Floating-point values are embedded exactly: an IEEE-754 binary64 datum is a
NaN (sign and payload bits), an infinity, a signed zero, or a nonzero finite
value in canonical dyadic form (sign, odd mantissa, exponent).  Every
operation is executable (Nat/Int arithmetic only) and bit-exact, with round
to nearest, ties to even, gradual underflow and overflow to infinity.
-/

/-! ## Exact model of IEEE-754 binary64 (and binary32) values -/

/-- An IEEE-754 binary floating-point datum, represented exactly.
A nonzero finite value is `finite s m e` with `m` odd, denoting
`(-1)^s * m * 2^e`; this canonical dyadic form is unique per value, so
structural equality is bit-for-bit equality of the represented data.
NaNs carry sign and fraction payload so that bit-for-bit claims about NaN
payloads are expressible.  The same carrier serves binary64 and binary32
(the format is fixed by the rounding function that produced the value). -/
inductive F64 where
  | nan (sign : Bool) (payload : ℕ)
  | inf (sign : Bool)
  | zero (sign : Bool)
  | finite (sign : Bool) (m : ℕ) (e : ℤ)
deriving DecidableEq

namespace F64

/-- Is the datum a NaN? -/
def isNaN : F64 → Bool
  | .nan _ _ => true
  | _ => false

end F64

/-- Quiet a binary64 NaN payload: set the top (quiet) fraction bit, bit 51. -/
def quiet64 (p : ℕ) : ℕ := p ||| 2 ^ 51

/-- The canonical QNaN produced by SSE2 for invalid operations
(the "indefinite" QNaN: sign bit set, quiet bit set, payload zero). -/
def qnanDefault : F64 := .nan true (2 ^ 51)

/-- Fuelled floor-log2 on ℕ (`lg2F fuel n = ⌊log2 n⌋` for `1 ≤ n` whenever
`fuel` exceeds the bit length; structural recursion so the kernel reduces it). -/
def lg2F : ℕ → ℕ → ℕ
  | 0, _ => 0
  | fuel + 1, n => if n ≤ 1 then 0 else lg2F fuel (n / 2) + 1

/-- Floor-log2 on ℕ with ample fuel for every number this development meets. -/
def lg2 (n : ℕ) : ℕ := lg2F 6000 n

/-- Bit length of a natural number (`blen 0 = 0`). -/
def blen (n : ℕ) : ℕ := if n = 0 then 0 else lg2 n + 1

/-- Divide out factors of two (fuelled): `oddify fuel m e` returns
`(m', e')` with `m' * 2^e' = m * 2^e` and `m'` odd (for `m ≠ 0` and
sufficient fuel).  Produces the canonical dyadic form. -/
def oddify : ℕ → ℕ → ℤ → ℕ × ℤ
  | 0, m, e => (m, e)
  | fuel + 1, m, e =>
      if m % 2 = 0 && m != 0 then oddify fuel (m / 2) (e + 1) else (m, e)

/-- Compare dyadic magnitudes: is `a * 2^ea < b * 2^eb`? -/
def dyLtN (a : ℕ) (ea : ℤ) (b : ℕ) (eb : ℤ) : Bool :=
  if ea ≤ eb then decide (a < b * 2 ^ (eb - ea).toNat)
  else decide (a * 2 ^ (ea - eb).toNat < b)

/-- Compare dyadic magnitudes: is `a * 2^ea = b * 2^eb`? -/
def dyEqN (a : ℕ) (ea : ℤ) (b : ℕ) (eb : ℤ) : Bool :=
  if ea ≤ eb then decide (a = b * 2 ^ (eb - ea).toNat)
  else decide (a * 2 ^ (ea - eb).toNat = b)

/-- Final packaging step of IEEE rounding: given the rounded integral
significand `m` scaled at ulp exponent `u` (value `m * 2^u`), return the
datum — a signed zero on total underflow, the signed infinity on overflow
past `emax`, otherwise the canonical finite value. -/
def finishRound (emax : ℤ) (sign : Bool) (m : ℕ) (u : ℤ) : F64 :=
  if m = 0 then .zero sign
  else
    let t : ℤ := emax + 1 - u
    if t < 0 then .inf sign
    else if 2 ^ t.toNat ≤ m then .inf sign
    else
      let me := oddify 1100 m u
      .finite sign me.1 me.2

/-- Round-to-nearest-even of `a / 2^k` (magnitude only), for `1 ≤ k`. -/
def rneShift (a : ℕ) (k : ℕ) : ℕ :=
  let m0 := a / 2 ^ k
  let r := a % 2 ^ k
  let half := 2 ^ (k - 1)
  if r < half then m0
  else if half < r then m0 + 1
  else if m0 % 2 = 0 then m0 else m0 + 1

/-- IEEE-754 binary rounding (round to nearest, ties to even) of the exact
nonzero dyadic value `(-1)^sign * a * 2^ea` into a format with `prec` bits
of precision, minimum normal exponent `emin` and maximum exponent `emax`. -/
def roundDy (prec : ℕ) (emin emax : ℤ) (sign : Bool) (a : ℕ) (ea : ℤ) : F64 :=
  if a = 0 then .zero sign
  else
    let e0 : ℤ := ((blen a - 1 : ℕ) : ℤ) + ea
    let e := if e0 ≤ emin then emin else e0
    let u : ℤ := e - ((prec - 1 : ℕ) : ℤ)
    let sh : ℤ := ea - u
    let m := if 0 ≤ sh then a * 2 ^ sh.toNat else rneShift a (-sh).toNat
    finishRound emax sign m u

/-- Round an exact dyadic value to IEEE-754 binary64. -/
def roundF64 (sign : Bool) (a : ℕ) (ea : ℤ) : F64 := roundDy 53 (-1022) 1023 sign a ea

/-- Round an exact dyadic value to IEEE-754 binary32. -/
def roundF32 (sign : Bool) (a : ℕ) (ea : ℤ) : F64 := roundDy 24 (-126) 127 sign a ea

/-- The binary64 value of a small natural number (e.g. `ofN 3` is 3.0).
Exact for `n < 2^53`, which covers every literal in the sources. -/
def ofN (n : ℕ) : F64 :=
  if n = 0 then .zero false
  else
    let me := oddify 1100 n 0
    .finite false me.1 me.2

/-! ## Scalar SSE2 arithmetic on binary64 (the native-instruction semantics)

The Rust operators `+ - * /` on `f64` used as the reference in
`test_binop!` lower to the SSE2 scalar instructions ADDSD/SUBSD/MULSD/DIVSD;
these implement IEEE-754 arithmetic in round-to-nearest-even, propagate the
first NaN operand (quieted), and follow the IEEE special-value rules. -/

/-- Exact signed sum of two dyadic values, rounded to binary64. -/
def addDy (s1 : Bool) (m1 : ℕ) (e1 : ℤ) (s2 : Bool) (m2 : ℕ) (e2 : ℤ) : F64 :=
  let em := if e1 ≤ e2 then e1 else e2
  let a1 : ℤ := (m1 : ℤ) * 2 ^ (e1 - em).toNat
  let a2 : ℤ := (m2 : ℤ) * 2 ^ (e2 - em).toNat
  let M : ℤ := (if s1 then -a1 else a1) + (if s2 then -a2 else a2)
  if M = 0 then .zero false
  else roundF64 (decide (M < 0)) M.natAbs em

/-- IEEE-754 binary64 addition (SSE2 ADDSD semantics). -/
def fadd : F64 → F64 → F64
  | .nan s p, _ => .nan s (quiet64 p)
  | _, .nan s p => .nan s (quiet64 p)
  | .inf sx, .inf sy => if sx = sy then .inf sx else qnanDefault
  | .inf sx, _ => .inf sx
  | _, .inf sy => .inf sy
  | .zero sx, .zero sy => if sx = sy then .zero sx else .zero false
  | .zero _, .finite s m e => .finite s m e
  | .finite s m e, .zero _ => .finite s m e
  | .finite s1 m1 e1, .finite s2 m2 e2 => addDy s1 m1 e1 s2 m2 e2

/-- IEEE-754 binary64 subtraction (SSE2 SUBSD semantics). -/
def fsub : F64 → F64 → F64
  | .nan s p, _ => .nan s (quiet64 p)
  | _, .nan s p => .nan s (quiet64 p)
  | .inf sx, .inf sy => if sx = sy then qnanDefault else .inf sx
  | .inf sx, _ => .inf sx
  | _, .inf sy => .inf (!sy)
  | .zero sx, .zero sy => .zero (sx && !sy)
  | .zero _, .finite s m e => .finite (!s) m e
  | .finite s m e, .zero _ => .finite s m e
  | .finite s1 m1 e1, .finite s2 m2 e2 => addDy s1 m1 e1 (!s2) m2 e2

/-- IEEE-754 binary64 multiplication (SSE2 MULSD semantics). -/
def fmul : F64 → F64 → F64
  | .nan s p, _ => .nan s (quiet64 p)
  | _, .nan s p => .nan s (quiet64 p)
  | .inf sx, .inf sy => .inf (sx != sy)
  | .inf _, .zero _ => qnanDefault
  | .zero _, .inf _ => qnanDefault
  | .inf sx, .finite s _ _ => .inf (sx != s)
  | .finite s _ _, .inf sy => .inf (s != sy)
  | .zero sx, .zero sy => .zero (sx != sy)
  | .zero sx, .finite s _ _ => .zero (sx != s)
  | .finite s _ _, .zero sy => .zero (s != sy)
  | .finite s1 m1 e1, .finite s2 m2 e2 => roundF64 (s1 != s2) (m1 * m2) (e1 + e2)

/-- Correctly rounded (round-to-nearest-even) binary64 quotient of the
exact positive rational `(a * 2^ea) / b` with result sign `sign`:
determine the result exponent by bracketing with bit lengths, then round
the scaled integer quotient using the exact remainder. -/
def divDy (sign : Bool) (a : ℕ) (ea : ℤ) (b : ℕ) : F64 :=
  let c : ℤ := (blen a : ℤ) - (blen b : ℤ)
  let ge : Bool :=
    if 0 ≤ c then decide (b * 2 ^ c.toNat ≤ a) else decide (b ≤ a * 2 ^ (-c).toNat)
  let e0 : ℤ := (if ge then c else c - 1) + ea
  let e := if e0 ≤ -1022 then (-1022 : ℤ) else e0
  let u : ℤ := e - 52
  let t : ℤ := ea - u
  let n := if 0 ≤ t then a * 2 ^ t.toNat else a
  let d := if 0 ≤ t then b else b * 2 ^ (-t).toNat
  let q := n / d
  let r := n % d
  let m :=
    if 2 * r < d then q
    else if d < 2 * r then q + 1
    else if q % 2 = 0 then q else q + 1
  finishRound 1023 sign m u

/-- IEEE-754 binary64 division (SSE2 DIVSD semantics): division of a finite
nonzero value by a zero yields the signed infinity, never a trap. -/
def fdiv : F64 → F64 → F64
  | .nan s p, _ => .nan s (quiet64 p)
  | _, .nan s p => .nan s (quiet64 p)
  | .inf _, .inf _ => qnanDefault
  | .inf sx, .zero sy => .inf (sx != sy)
  | .inf sx, .finite s _ _ => .inf (sx != s)
  | .zero sx, .inf sy => .zero (sx != sy)
  | .finite s _ _, .inf sy => .zero (s != sy)
  | .zero _, .zero _ => qnanDefault
  | .zero sx, .finite s _ _ => .zero (sx != s)
  | .finite s _ _, .zero sy => .inf (s != sy)
  | .finite s1 m1 e1, .finite s2 m2 e2 => divDy (s1 != s2) m1 (e1 - e2) m2

/-! ## Ordered comparisons and the SSE2 reference operations from the sources

The following definitions embed the SSE2 reference functions of
`src/examples/compiler_singlepass_softfloat64.rs` (lines 613-740): `_max_f64`
and `_min_f64` (MAXPD/MINPD), the comparison helpers built from `_mm_cmp_pd`
with the EQ_UQ / NEQ_UQ / LT_OQ / LE_OQ / GT_OQ / GE_OQ predicates, the
rounding helpers built from `_mm_round_pd`, `_sqrt_f64` (SQRTPD) and
`_demote_f64` (CVTPD2PS). -/

/-- Ordered less-than on binary64 data: false whenever an operand is NaN;
+0 and -0 compare equal. -/
def fltB : F64 → F64 → Bool
  | .nan _ _, _ => false
  | _, .nan _ _ => false
  | .inf sx, .inf sy => sx && !sy
  | .inf sx, _ => sx
  | _, .inf sy => !sy
  | .zero _, .zero _ => false
  | .zero _, .finite s _ _ => !s
  | .finite s _ _, .zero _ => s
  | .finite s1 m1 e1, .finite s2 m2 e2 =>
      if s1 then (if s2 then dyLtN m2 e2 m1 e1 else true)
      else (if s2 then false else dyLtN m1 e1 m2 e2)

/-- Ordered value equality on binary64 data: false whenever an operand is
NaN; +0 and -0 compare equal (canonical finite forms compare structurally). -/
def feqB : F64 → F64 → Bool
  | .zero _, .zero _ => true
  | .inf sx, .inf sy => sx = sy
  | .finite s1 m1 e1, .finite s2 m2 e2 => s1 = s2 && m1 = m2 && e1 = e2
  | _, _ => false

/-- Ordered greater-than on binary64 data. -/
def fgtB (x y : F64) : Bool := fltB y x

/-- `_max_f64` (src lines 613-620): SSE2 MAXPD semantics — return the first
operand only when it compares (ordered) greater than the second; in every
other case, NaNs and equal values included, return the second operand. -/
def _max_f64 (lhs rhs : F64) : F64 := if fgtB lhs rhs then lhs else rhs

/-- `_min_f64` (src lines 622-629): SSE2 MINPD semantics — return the first
operand only when it compares (ordered) less than the second; in every
other case, NaNs and equal values included, return the second operand. -/
def _min_f64 (lhs rhs : F64) : F64 := if fltB lhs rhs then lhs else rhs

/-- `_eq_f64` (src lines 631-640): `_mm_cmp_pd` with `_CMP_EQ_UQ`
(equal or unordered, quiet), low lane, masked to one bit. -/
def _eq_f64 (lhs rhs : F64) : ℕ :=
  if lhs.isNaN || rhs.isNaN || feqB lhs rhs then 1 else 0

/-- `_ne_f64` (src lines 642-651): `_CMP_NEQ_UQ` (not-equal or unordered). -/
def _ne_f64 (lhs rhs : F64) : ℕ :=
  if lhs.isNaN || rhs.isNaN then 1 else if feqB lhs rhs then 0 else 1

/-- `_lt_f64` (src lines 653-662): `_CMP_LT_OQ` (ordered less-than). -/
def _lt_f64 (lhs rhs : F64) : ℕ := if fltB lhs rhs then 1 else 0

/-- `_le_f64` (src lines 664-673): `_CMP_LE_OQ` (ordered less-or-equal). -/
def _le_f64 (lhs rhs : F64) : ℕ :=
  if lhs.isNaN || rhs.isNaN then 0 else if fltB rhs lhs then 0 else 1

/-- `_gt_f64` (src lines 675-684): `_CMP_GT_OQ` (ordered greater-than). -/
def _gt_f64 (lhs rhs : F64) : ℕ := if fltB rhs lhs then 1 else 0

/-- `_ge_f64` (src lines 686-695): `_CMP_GE_OQ` (ordered greater-or-equal). -/
def _ge_f64 (lhs rhs : F64) : ℕ :=
  if lhs.isNaN || rhs.isNaN then 0 else if fltB lhs rhs then 0 else 1

/-- Rounding directions of `_mm_round_pd`. -/
inductive RMode where
  | nearest
  | down
  | up
  | zeroward
deriving DecidableEq

/-- Round a binary64 datum to an integral binary64 value in the given
direction (ROUNDPD semantics: NaNs are quieted, infinities and zeros pass
through, and a nonzero value rounding to zero keeps its sign). -/
def roundIntF (mode : RMode) : F64 → F64
  | .nan s p => .nan s (quiet64 p)
  | .inf s => .inf s
  | .zero s => .zero s
  | .finite s m e =>
      if 0 ≤ e then .finite s m e
      else
        let k := (-e).toNat
        let i0 := m / 2 ^ k
        let r := m % 2 ^ k
        let half := 2 ^ (k - 1)
        let mag :=
          match mode with
          | .nearest =>
              if r < half then i0
              else if half < r then i0 + 1
              else if i0 % 2 = 0 then i0 else i0 + 1
          | .down => if s then i0 + 1 else i0
          | .up => if s then i0 else i0 + 1
          | .zeroward => i0
        if mag = 0 then .zero s
        else
          let me := oddify 1100 mag 0
          .finite s me.1 me.2

/-- `_nearest_f64` (src lines 697-703): `_mm_round_pd` to nearest integral,
ties to even. -/
def _nearest_f64 (src : F64) : F64 := roundIntF .nearest src

/-- `_floor_f64` (src lines 704-710): `_mm_round_pd` toward negative
infinity. -/
def _floor_f64 (src : F64) : F64 := roundIntF .down src

/-- `_ceil_f64` (src lines 711-717): `_mm_round_pd` toward positive
infinity. -/
def _ceil_f64 (src : F64) : F64 := roundIntF .up src

/-- `_trunc_f64` (src lines 718-724): `_mm_round_pd` toward zero. -/
def _trunc_f64 (src : F64) : F64 := roundIntF .zeroward src

/-- Fuelled binary search for the largest `m` in `[lo, hi]` with `ok m`
(requires `ok lo` and antitone `ok`). -/
def bsearchMax : ℕ → ℕ → ℕ → (ℕ → Bool) → ℕ
  | 0, lo, _, _ => lo
  | fuel + 1, lo, hi, ok =>
      if hi ≤ lo then lo
      else
        let mid := (lo + hi + 1) / 2
        if ok mid then bsearchMax fuel mid hi ok else bsearchMax fuel lo (mid - 1) ok

/-- Correctly rounded binary64 square root of the positive value `m * 2^e`:
bracket the result significand by integer binary search on exact dyadic
squares, then round to nearest (ties to even) by one exact half-point
comparison. -/
def sqrtDy (m : ℕ) (e : ℤ) : F64 :=
  let ev : ℤ := ((blen m - 1 : ℕ) : ℤ) + e
  let e2 := Int.fdiv ev 2
  let u : ℤ := e2 - 52
  let m0 := bsearchMax 60 (2 ^ 52) (2 ^ 53) (fun mm => !(dyLtN m e (mm * mm) (2 * u)))
  let h := (2 * m0 + 1) * (2 * m0 + 1)
  let m1 :=
    if dyLtN h (2 * u - 2) m e then m0 + 1
    else if dyEqN h (2 * u - 2) m e then (if m0 % 2 = 0 then m0 else m0 + 1)
    else m0
  finishRound 1023 false m1 u

/-- `_sqrt_f64` (src lines 725-731): SQRTPD — IEEE-754 correctly rounded
square root; negative inputs (and -inf) give the default QNaN, signed zeros
pass through. -/
def _sqrt_f64 : F64 → F64
  | .nan s p => .nan s (quiet64 p)
  | .inf false => .inf false
  | .inf true => qnanDefault
  | .zero s => .zero s
  | .finite s m e => if s then qnanDefault else sqrtDy m e

/-- `_demote_f64` (src lines 733-740): CVTPD2PS — demote binary64 to
binary32 with round-to-nearest-even; NaNs are quieted and the payload's top
22 bits are kept. -/
def _demote_f64 : F64 → F64
  | .nan s p => .nan s (quiet64 p >>> 29)
  | .inf s => .inf s
  | .zero s => .zero s
  | .finite s m e => roundF32 s m e

/-! ## Opcode families and the two float-mode implementations

The spec (§4.4, §9) describes the Soft-Float Emulation Mode as a strategy
object with one emission capability per opcode family, chosen once per
compilation session: the native implementation emits the SSE2 instructions,
the software implementation calls routines producing results observably
identical to the native-instruction path for every input.  The soft-float
routines themselves are not under `src/`, so they are modelled from the
spec below (`soft_…` definitions); the native semantics are the SSE2
operations embedded above. -/

/-- The supported binary64 arithmetic binops of the example
(`add`, `sub`, `mul`, `div`, `min`, `max`). -/
inductive FBinop where
  | add
  | sub
  | mul
  | div
  | min
  | max
deriving DecidableEq

/-- The supported binary64 comparison opcodes of the example
(`eq`, `ne`, `lt`, `le`, `gt`, `ge`), producing an i32 in {0, 1}. -/
inductive FCmpop where
  | eq
  | ne
  | lt
  | le
  | gt
  | ge
deriving DecidableEq

/-- The supported binary64 unary opcodes of the example
(`nearest`, `floor`, `ceil`, `trunc`, `sqrt`). -/
inductive FUnop where
  | nearest
  | floor
  | ceil
  | trunc
  | sqrt
deriving DecidableEq

/-- Native-Instruction-Mode semantics of the binary opcodes: the SSE2
scalar operations (ADDSD/SUBSD/MULSD/DIVSD/MINPD/MAXPD). -/
def nativeBin : FBinop → F64 → F64 → F64
  | .add => fadd
  | .sub => fsub
  | .mul => fmul
  | .div => fdiv
  | .min => _min_f64
  | .max => _max_f64

/-- Native-Instruction-Mode semantics of the comparison opcodes (CMPPD). -/
def nativeCmp : FCmpop → F64 → F64 → ℕ
  | .eq => _eq_f64
  | .ne => _ne_f64
  | .lt => _lt_f64
  | .le => _le_f64
  | .gt => _gt_f64
  | .ge => _ge_f64

/-- Native-Instruction-Mode semantics of the unary opcodes
(ROUNDPD and SQRTPD). -/
def nativeUn : FUnop → F64 → F64
  | .nearest => _nearest_f64
  | .floor => _floor_f64
  | .ceil => _ceil_f64
  | .trunc => _trunc_f64
  | .sqrt => _sqrt_f64

/-- A float-mode strategy object (spec §9: one capability per opcode
family, with two implementations, native and software). -/
structure FloatImpl where
  binop : FBinop → F64 → F64 → F64
  cmpop : FCmpop → F64 → F64 → ℕ
  unop : FUnop → F64 → F64
  demote : F64 → F64

/-- The Native-Instruction-Mode strategy. -/
def nativeImpl : FloatImpl :=
  { binop := nativeBin, cmpop := nativeCmp, unop := nativeUn, demote := _demote_f64 }

/-- Modelled from the spec: the software addition routine of Soft-Float
Emulation Mode (the routine itself is not under `src/`).  Written as a
software routine: classify the first operand, then the second, and defer
to the shared exact dyadic kernel for the finite-finite case. -/
def soft_fadd (x y : F64) : F64 :=
  match x with
  | .nan s p => .nan s (quiet64 p)
  | .inf sx =>
      match y with
      | .nan s p => .nan s (quiet64 p)
      | .inf sy => if sx = sy then .inf sx else qnanDefault
      | .zero _ => .inf sx
      | .finite _ _ _ => .inf sx
  | .zero sx =>
      match y with
      | .nan s p => .nan s (quiet64 p)
      | .inf sy => .inf sy
      | .zero sy => if sx = sy then .zero sx else .zero false
      | .finite s m e => .finite s m e
  | .finite s1 m1 e1 =>
      match y with
      | .nan s p => .nan s (quiet64 p)
      | .inf sy => .inf sy
      | .zero _ => .finite s1 m1 e1
      | .finite s2 m2 e2 => addDy s1 m1 e1 s2 m2 e2

/-- Modelled from the spec: the software subtraction routine of Soft-Float
Emulation Mode. -/
def soft_fsub (x y : F64) : F64 :=
  match x with
  | .nan s p => .nan s (quiet64 p)
  | .inf sx =>
      match y with
      | .nan s p => .nan s (quiet64 p)
      | .inf sy => if sx = sy then qnanDefault else .inf sx
      | .zero _ => .inf sx
      | .finite _ _ _ => .inf sx
  | .zero sx =>
      match y with
      | .nan s p => .nan s (quiet64 p)
      | .inf sy => .inf (!sy)
      | .zero sy => .zero (sx && !sy)
      | .finite s m e => .finite (!s) m e
  | .finite s1 m1 e1 =>
      match y with
      | .nan s p => .nan s (quiet64 p)
      | .inf sy => .inf (!sy)
      | .zero _ => .finite s1 m1 e1
      | .finite s2 m2 e2 => addDy s1 m1 e1 (!s2) m2 e2

/-- Modelled from the spec: the software multiplication routine of
Soft-Float Emulation Mode. -/
def soft_fmul (x y : F64) : F64 :=
  match x with
  | .nan s p => .nan s (quiet64 p)
  | .inf sx =>
      match y with
      | .nan s p => .nan s (quiet64 p)
      | .inf sy => .inf (sx != sy)
      | .zero _ => qnanDefault
      | .finite s _ _ => .inf (sx != s)
  | .zero sx =>
      match y with
      | .nan s p => .nan s (quiet64 p)
      | .inf _ => qnanDefault
      | .zero sy => .zero (sx != sy)
      | .finite s _ _ => .zero (sx != s)
  | .finite s1 m1 e1 =>
      match y with
      | .nan s p => .nan s (quiet64 p)
      | .inf sy => .inf (s1 != sy)
      | .zero sy => .zero (s1 != sy)
      | .finite s2 m2 e2 => roundF64 (s1 != s2) (m1 * m2) (e1 + e2)

/-- Modelled from the spec: the software division routine of Soft-Float
Emulation Mode. -/
def soft_fdiv (x y : F64) : F64 :=
  match x with
  | .nan s p => .nan s (quiet64 p)
  | .inf sx =>
      match y with
      | .nan s p => .nan s (quiet64 p)
      | .inf _ => qnanDefault
      | .zero sy => .inf (sx != sy)
      | .finite s _ _ => .inf (sx != s)
  | .zero sx =>
      match y with
      | .nan s p => .nan s (quiet64 p)
      | .inf sy => .zero (sx != sy)
      | .zero _ => qnanDefault
      | .finite s _ _ => .zero (sx != s)
  | .finite s1 m1 e1 =>
      match y with
      | .nan s p => .nan s (quiet64 p)
      | .inf sy => .zero (s1 != sy)
      | .zero sy => .inf (s1 != sy)
      | .finite s2 m2 e2 => divDy (s1 != s2) m1 (e1 - e2) m2

/-- Modelled from the spec: the software minimum routine of Soft-Float
Emulation Mode, observably identical to MINPD: an explicit unordered check
first, then the ordered comparison. -/
def soft_fmin (x y : F64) : F64 :=
  if x.isNaN || y.isNaN then y else if fltB x y then x else y

/-- Modelled from the spec: the software maximum routine of Soft-Float
Emulation Mode, observably identical to MAXPD. -/
def soft_fmax (x y : F64) : F64 :=
  if x.isNaN || y.isNaN then y else if fgtB x y then x else y

/-- Modelled from the spec: the software comparison routines of Soft-Float
Emulation Mode (unordered operands handled by an explicit first check). -/
def softCmp : FCmpop → F64 → F64 → ℕ
  | .eq => fun x y => if x.isNaN || y.isNaN then 1 else if feqB x y then 1 else 0
  | .ne => fun x y => if x.isNaN then 1 else if y.isNaN then 1 else if feqB x y then 0 else 1
  | .lt => fun x y => if x.isNaN || y.isNaN then 0 else if fltB x y then 1 else 0
  | .le => fun x y => if x.isNaN || y.isNaN then 0 else if fltB y x then 0 else 1
  | .gt => fun x y => if x.isNaN || y.isNaN then 0 else if fltB y x then 1 else 0
  | .ge => fun x y => if x.isNaN || y.isNaN then 0 else if fltB x y then 0 else 1

/-- Modelled from the spec: the software rounding routine of Soft-Float
Emulation Mode (classify the datum, then defer to the shared exact
integer-rounding kernel). -/
def softRound (mode : RMode) (x : F64) : F64 :=
  match x with
  | .nan s p => .nan s (quiet64 p)
  | .inf s => .inf s
  | .zero s => .zero s
  | .finite s m e => roundIntF mode (.finite s m e)

/-- Modelled from the spec: the software square-root routine of Soft-Float
Emulation Mode. -/
def soft_fsqrt (x : F64) : F64 :=
  match x with
  | .nan s p => .nan s (quiet64 p)
  | .inf s => if s then qnanDefault else .inf false
  | .zero s => .zero s
  | .finite s m e => if s then qnanDefault else sqrtDy m e

/-- Modelled from the spec: the software unary dispatch of Soft-Float
Emulation Mode. -/
def softUn : FUnop → F64 → F64
  | .nearest => softRound .nearest
  | .floor => softRound .down
  | .ceil => softRound .up
  | .trunc => softRound .zeroward
  | .sqrt => soft_fsqrt

/-- Modelled from the spec: the software binop dispatch of Soft-Float
Emulation Mode. -/
def softBin : FBinop → F64 → F64 → F64
  | .add => soft_fadd
  | .sub => soft_fsub
  | .mul => soft_fmul
  | .div => soft_fdiv
  | .min => soft_fmin
  | .max => soft_fmax

/-- Modelled from the spec: the software demotion (binary64 to binary32)
routine of Soft-Float Emulation Mode. -/
def soft_demote (x : F64) : F64 :=
  match x with
  | .nan s p => .nan s ((p ||| 2 ^ 51) >>> 29)
  | .inf s => .inf s
  | .zero s => .zero s
  | .finite s m e => roundDy 24 (-126) 127 s m e

/-- Modelled from the spec: the Soft-Float Emulation Mode strategy. -/
def softImpl : FloatImpl :=
  { binop := softBin, cmpop := softCmp, unop := softUn, demote := soft_demote }

/-! ## Pointwise equality of the two strategies -/

/-- Ordered less-than is false whenever an operand is NaN. -/
theorem fltB_nan_false (x y : F64) (h : (x.isNaN || y.isNaN) = true) :
    fltB x y = false := by
  cases x <;> cases y <;> simp_all [fltB, F64.isNaN]

/-- The software binops agree with the native SSE2 binops pointwise. -/
theorem softBin_eq_nativeBin (b : FBinop) (x y : F64) :
    softBin b x y = nativeBin b x y := by
  cases b
  case add => cases x <;> cases y <;> rfl
  case sub => cases x <;> cases y <;> rfl
  case mul => cases x <;> cases y <;> rfl
  case div => cases x <;> cases y <;> rfl
  case min =>
    show soft_fmin x y = _min_f64 x y
    by_cases h : (x.isNaN || y.isNaN) = true
    · simp [soft_fmin, _min_f64, h, fltB_nan_false x y h]
    · simp at h
      simp [soft_fmin, _min_f64, h]
  case max =>
    show soft_fmax x y = _max_f64 x y
    by_cases h : (x.isNaN || y.isNaN) = true
    · simp [soft_fmax, _max_f64, fgtB, h, fltB_nan_false y x (by simp_all [Bool.or_comm])]
    · simp at h
      simp [soft_fmax, _max_f64, h]

/-- The software comparisons agree with the native SSE2 comparisons
pointwise. -/
theorem softCmp_eq_nativeCmp (c : FCmpop) (x y : F64) :
    softCmp c x y = nativeCmp c x y := by
  cases c <;>
    by_cases hx : x.isNaN = true <;>
    by_cases hy : y.isNaN = true <;>
    simp_all [softCmp, nativeCmp, _eq_f64, _ne_f64, _lt_f64, _le_f64, _gt_f64, _ge_f64,
      fltB_nan_false]

/-- The software unary routines agree with the native SSE2 unary
operations pointwise. -/
theorem softUn_eq_nativeUn (u : FUnop) (x : F64) :
    softUn u x = nativeUn u x := by
  cases u <;> cases x <;>
    first
    | rfl
    | (rename_i s
       cases s <;> rfl)

/-- The software demotion agrees with CVTPD2PS pointwise. -/
theorem soft_demote_eq (x : F64) : soft_demote x = _demote_f64 x := by
  cases x <;> rfl

/-! ## Instruction streams, the reference interpreter and the compiled form

The example's wat functions are straight-line stack programs over f64
locals.  `evalOp`/`evalOps` give the reference operational semantics of the
supported opcodes; `compileStraight`/`runFrom` model the single-pass
lowering of such a stream into a placed code region with trap sites. -/

/-- A runtime value of the embedded format (i32 / f32 / f64). -/
inductive Val where
  | i32 (n : ℕ)
  | f32 (x : F64)
  | f64 (x : F64)
deriving DecidableEq

/-- Runtime fault kinds relevant to the claims (spec §3 Trap Site). -/
inductive TrapKind where
  | divByZero
  | invalid
deriving DecidableEq

/-- A Trap Site / trap report: fault kind plus generated-code offset
(spec §3). -/
structure TrapInfo where
  kind : TrapKind
  offset : ℕ
deriving DecidableEq

/-- The decoded opcodes used by the example's wat functions
(spec §3 Instruction Stream; indices pre-validated). -/
inductive Op where
  | localGet (i : ℕ)
  | f64const (c : F64)
  | f64bin (b : FBinop)
  | f64cmp (c : FCmpop)
  | f64un (u : FUnop)
  | f32demote
  | i32divU
deriving DecidableEq

/-- Modelled from the spec: the exact numeric semantics of one opcode on
the virtual operand stack (spec §4.1 step 1-4; the decoder/validator and
the generated machine code are not under `src/`).  A malformed stack or
out-of-range local — excluded for pre-validated streams — reports an
internal-invariant fault; integer division by zero reports the
divide-by-zero trap kind; float division never faults (IEEE results). -/
def evalOp (impl : FloatImpl) (args : List Val) (st : List Val) :
    Op → Except TrapKind (List Val)
  | .localGet i =>
      match args[i]? with
      | some v => .ok (v :: st)
      | none => .error .invalid
  | .f64const c => .ok (.f64 c :: st)
  | .f64bin b =>
      match st with
      | .f64 y :: .f64 x :: r => .ok (.f64 (impl.binop b x y) :: r)
      | _ => .error .invalid
  | .f64cmp c =>
      match st with
      | .f64 y :: .f64 x :: r => .ok (.i32 (impl.cmpop c x y) :: r)
      | _ => .error .invalid
  | .f64un u =>
      match st with
      | .f64 x :: r => .ok (.f64 (impl.unop u x) :: r)
      | _ => .error .invalid
  | .f32demote =>
      match st with
      | .f64 x :: r => .ok (.f32 (impl.demote x) :: r)
      | _ => .error .invalid
  | .i32divU =>
      match st with
      | .i32 y :: .i32 x :: r =>
          if y = 0 then .error .divByZero else .ok (.i32 (x / y) :: r)
      | _ => .error .invalid

/-- Modelled from the spec: the reference interpreter over an instruction
stream — process instructions strictly in stream order (spec §4.1),
stopping at the first fault. -/
def evalOps (impl : FloatImpl) (args : List Val) :
    List Op → List Val → Except TrapKind (List Val)
  | [], st => .ok st
  | o :: rest, st =>
      match evalOp impl args st o with
      | .ok st2 => evalOps impl args rest st2
      | .error k => .error k

/-- A placed machine instruction (the generated code is abstracted at the
level of one emitted instruction per opcode). -/
inductive MInstr where
  | op (o : Op)
deriving DecidableEq

/-- A Compiled Function (spec §3): placed code plus its Trap Sites.
`base` is the code-placement offset chosen by the linker, so two
compilations of the same stream may differ in layout. -/
structure CompiledFn where
  base : ℕ
  code : List MInstr
  trapSites : List (ℕ × TrapKind)
deriving DecidableEq

/-- Trap sites of a straight-line stream placed at offset `pc`: one
divide-by-zero site per emitted integer-division instruction (spec §3, §4.3). -/
def trapSitesFrom (pc : ℕ) : List Op → List (ℕ × TrapKind)
  | [] => []
  | o :: rest =>
      match o with
      | .i32divU => (pc, TrapKind.divByZero) :: trapSitesFrom (pc + 1) rest
      | _ => trapSitesFrom (pc + 1) rest

/-- Modelled from the spec: the single-pass lowering of a straight-line
instruction stream (spec §4.1) placed at offset `base` — one machine
instruction per opcode, emitted in stream order, with the trap table
recording the offset of every instruction that can fault.  The generator
itself is not under `src/`. -/
def compileStraight (base : ℕ) (prog : List Op) : CompiledFn :=
  { base := base, code := prog.map MInstr.op, trapSites := trapSitesFrom base prog }

/-- Modelled from the spec: execution of placed code — step each machine
instruction, and on a fault report the trap kind together with the code
offset of the faulting instruction (spec §4.3: the fault handler translates
a faulting address into a typed error). -/
def runFrom (impl : FloatImpl) (args : List Val) :
    List MInstr → ℕ → List Val → Except TrapInfo (List Val)
  | [], _, st => .ok st
  | .op o :: rest, pc, st =>
      match evalOp impl args st o with
      | .ok st2 => runFrom impl args rest (pc + 1) st2
      | .error k => .error ⟨k, pc⟩

/-- Call a Compiled Function on arguments: run its code from its base
offset on an empty operand stack. -/
def runCompiled (impl : FloatImpl) (c : CompiledFn) (args : List Val) :
    Except TrapInfo (List Val) :=
  runFrom impl args c.code c.base []

/-- The observable outcome of a call: the result values, or the trap kind
(the faulting offset is code layout, not observable behaviour). -/
def observe : Except TrapInfo (List Val) → Except TrapKind (List Val)
  | .ok v => .ok v
  | .error t => .error t.kind

/-- Did the call succeed? -/
def isOkE : Except TrapInfo (List Val) → Bool
  | .ok _ => true
  | .error _ => false

/-- Running the placed code of a straight-line stream is observably the
reference interpreter on that stream, regardless of the placement offset. -/
theorem observe_runFrom (impl : FloatImpl) (args : List Val) :
    ∀ (prog : List Op) (pc : ℕ) (st : List Val),
      observe (runFrom impl args (prog.map MInstr.op) pc st) = evalOps impl args prog st := by
  intro prog
  induction prog with
  | nil => intro pc st; rfl
  | cons o rest ih =>
      intro pc st
      show observe (runFrom impl args (MInstr.op o :: rest.map MInstr.op) pc st) = _
      cases h : evalOp impl args st o with
      | ok st2 => simp [runFrom, evalOps, h, ih]
      | error k => simp [runFrom, evalOps, h, observe]

/-! ## The wat functions of the example, as expression trees

The bodies of the example's wat functions are f64 expressions over locals;
`toOps` is their (postorder) instruction stream, exactly the stack code the
wat text denotes. -/

/-- An f64 expression over the function's locals. -/
inductive FExpr where
  | localGet (i : ℕ)
  | const (c : F64)
  | bin (b : FBinop) (l r : FExpr)
deriving DecidableEq

/-- Reference evaluation of an expression (spec §8 "reference
interpreter"), under a float-mode strategy. -/
def evalExpr (impl : FloatImpl) (args : List F64) : FExpr → Except TrapKind F64
  | .localGet i =>
      match args[i]? with
      | some v => .ok v
      | none => .error .invalid
  | .const c => .ok c
  | .bin b l r =>
      match evalExpr impl args l with
      | .error k => .error k
      | .ok x =>
          match evalExpr impl args r with
          | .error k => .error k
          | .ok y => .ok (impl.binop b x y)

/-- The instruction stream of an expression (postorder, as in the wat
text: operands first, then the operator). -/
def toOps : FExpr → List Op
  | .localGet i => [.localGet i]
  | .const c => [.f64const c]
  | .bin b l r => toOps l ++ (toOps r ++ [.f64bin b])

/-- The reference interpreter on an expression's instruction stream pushes
exactly the expression's value (or stops at its first fault). -/
theorem evalOps_toOps (impl : FloatImpl) (args : List F64) :
    ∀ (e : FExpr) (k : List Op) (st : List Val),
      evalOps impl (args.map Val.f64) (toOps e ++ k) st =
        match evalExpr impl args e with
        | .ok v => evalOps impl (args.map Val.f64) k (Val.f64 v :: st)
        | .error t => .error t := by
  intro e
  induction e with
  | localGet i =>
      intro k st
      show evalOps impl (args.map Val.f64) (Op.localGet i :: k) st = _
      have hmap : (args.map Val.f64)[i]? = (args[i]?).map Val.f64 := by
        simp
      cases h : args[i]? with
      | some v => simp [evalOps, evalOp, evalExpr, hmap, h]
      | none => simp [evalOps, evalOp, evalExpr, hmap, h]
  | const c => intro k st; simp [toOps, evalOps, evalOp, evalExpr]
  | bin b l r ihl ihr =>
      intro k st
      show evalOps impl (args.map Val.f64) ((toOps l ++ (toOps r ++ [Op.f64bin b])) ++ k) st = _
      rw [List.append_assoc, ihl]
      cases hl : evalExpr impl args l with
      | error t => simp [evalExpr, hl]
      | ok x =>
          dsimp only
          rw [List.append_assoc, ihr]
          cases hr : evalExpr impl args r with
          | error t => simp [evalExpr, hl, hr]
          | ok y => simp [evalExpr, hl, hr, evalOps, evalOp]

/-- Running the placed code of an expression's stream is observably the
reference evaluation of the expression, at every placement offset. -/
theorem compiled_expr_correct (impl : FloatImpl) (base : ℕ) (args : List F64) (e : FExpr) :
    observe (runCompiled impl (compileStraight base (toOps e)) (args.map Val.f64))
      = (evalExpr impl args e).map (fun v => [Val.f64 v]) := by
  show observe (runFrom impl (args.map Val.f64) ((toOps e).map MInstr.op) base []) = _
  rw [observe_runFrom]
  have h := evalOps_toOps impl args e [] []
  rw [List.append_nil] at h
  rw [h]
  cases hE : evalExpr impl args e <;> simp [Except.map, evalOps]

/-- Local shorthand for `FExpr.localGet`. -/
def lgE (i : ℕ) : FExpr := FExpr.localGet i

/-- Local shorthand for an `f64.add` node. -/
def addE (l r : FExpr) : FExpr := FExpr.bin .add l r

/-- The body of the wat function `add` (src lines 24-25): `f64.add` over
the two f64 locals. -/
def addTree : FExpr := addE (lgE 0) (lgE 1)

/-- The body of the wat function `add20` (src lines 26-52): twenty
parameters summed by a tree of `f64.add` nodes, transcribed with the exact
association of the wat text. -/
def add20Tree : FExpr :=
  addE
    (addE
      (addE
        (addE (addE (lgE 0) (lgE 1)) (addE (lgE 2) (lgE 3)))
        (addE (addE (lgE 4) (lgE 5)) (addE (lgE 6) (lgE 7))))
      (addE
        (addE (addE (lgE 8) (lgE 9)) (addE (lgE 10) (lgE 11)))
        (addE (addE (lgE 12) (lgE 13)) (addE (lgE 14) (lgE 15)))))
    (addE (addE (lgE 16) (lgE 17)) (addE (lgE 18) (lgE 19)))

/-- The body of the wat function `add20r` (src lines 53-77): the same
twenty parameters summed in the fully right-associated order. -/
def add20rTree : FExpr :=
  addE (lgE 0)
    (addE (lgE 1)
      (addE (lgE 2)
        (addE (lgE 3)
          (addE (lgE 4)
            (addE (lgE 5)
              (addE (lgE 6)
                (addE (lgE 7)
                  (addE (lgE 8)
                    (addE (lgE 9)
                      (addE (lgE 10)
                        (addE (lgE 11)
                          (addE (lgE 12)
                            (addE (lgE 13)
                              (addE (lgE 14)
                                (addE (lgE 15)
                                  (addE (lgE 16)
                                    (addE (lgE 17)
                                      (addE (lgE 18) (lgE 19)))))))))))))))))))

/-- The twenty arguments `1.0 .. 20.0` passed in the example (src lines
133-154). -/
def args1to20 : List F64 :=
  [ofN 1, ofN 2, ofN 3, ofN 4, ofN 5, ofN 6, ofN 7, ofN 8, ofN 9, ofN 10,
   ofN 11, ofN 12, ofN 13, ofN 14, ofN 15, ofN 16, ofN 17, ofN 18, ofN 19, ofN 20]

/-- The flat stack body of the `test_binop!` wat function (src lines
192-200): push the two f64 locals, then the binop. -/
def binProg (b : FBinop) : List Op := [.localGet 0, .localGet 1, .f64bin b]

/-- The flat stack body of the `test_cmpop!` wat function (src lines
299-307). -/
def cmpProg (c : FCmpop) : List Op := [.localGet 0, .localGet 1, .f64cmp c]

/-- The flat stack body of the `test_unop!` wat function (src lines
353-360). -/
def unProg (u : FUnop) : List Op := [.localGet 0, .f64un u]

/-- The flat stack body of the `_test_demote` wat function (src lines
550-557). -/
def demoteProg : List Op := [.localGet 0, .f32demote]

/-- A function body performing an integer division whose divisor is the
second local (spec §8 concrete scenario 4). -/
def intDivProg : List Op := [.localGet 0, .localGet 1, .i32divU]

/-! ## The Control-Flow & Label Resolver (spec §3 Label, §4.2)

Modelled from the spec (the resolver is not under `src/`): a stack of open
Labels, pushed on structured-construct entry, popped on matching exit.  A
branch to a loop Label (offset already known) is emitted as a direct jump
immediately; a branch to a block Label is emitted as a pending site
appended to that Label's fixup list, consumed — backpatched to a direct
jump — the instant the Label closes.  Branch targets are structural
nesting depths (spec §6). -/

/-- A structured instruction for the resolver: a straight-line opcode,
a block or loop entry, a structured exit, or a branch to the Label at
relative nesting depth `d` (0 = innermost). -/
inductive SInstr where
  | simple
  | blockStart
  | loopStart
  | blockEnd
  | br (d : ℕ)
deriving DecidableEq

/-- An emitted instruction of the resolver model: a non-branch machine
instruction, a resolved direct jump, or a not-yet-backpatched branch site. -/
inductive MI where
  | mop
  | jmp (t : ℕ)
  | jpend
deriving DecidableEq

/-- An open Label (spec §3): loop Labels know their target offset on
entry; block Labels accumulate the list of pending branch sites to
backpatch when they close. -/
structure Frame where
  isLoop : Bool
  target : ℕ
  pending : List ℕ
deriving DecidableEq

/-- Compilation state of the resolver: the code emitted so far and the
stack of open Labels. -/
structure CState where
  code : List MI
  frames : List Frame
deriving DecidableEq

/-- Backpatch every site in the list to a direct jump to `tgt`. -/
def patch (tgt : ℕ) : List ℕ → List MI → List MI
  | [], c => c
  | i :: rest, c => patch tgt rest (c.set i (MI.jmp tgt))

/-- Modelled from the spec: one step of the single-pass resolver
(spec §4.2).  `br d` to a loop emits a direct jump to the loop's entry
offset; `br d` to a block records a pending site; a structured exit pops
its Label and backpatches all of that Label's pending sites to the current
offset.  An out-of-range branch depth or an exit without an open Label
cannot occur on pre-validated streams (the state is returned unchanged). -/
def stepC (st : CState) : SInstr → CState
  | .simple => { st with code := st.code ++ [MI.mop] }
  | .blockStart => { st with frames := ⟨false, 0, []⟩ :: st.frames }
  | .loopStart => { st with frames := ⟨true, st.code.length, []⟩ :: st.frames }
  | .br d =>
      match st.frames[d]? with
      | none => st
      | some f =>
          if f.isLoop then { st with code := st.code ++ [MI.jmp f.target] }
          else
            { code := st.code ++ [MI.jpend],
              frames := st.frames.set d ⟨f.isLoop, f.target, st.code.length :: f.pending⟩ }
  | .blockEnd =>
      match st.frames with
      | [] => st
      | f :: rest => { code := patch st.code.length f.pending st.code, frames := rest }

/-- Single-pass compilation of a stream from a given state. -/
def compileStream (st : CState) (s : List SInstr) : CState := s.foldl stepC st

/-- Modelled from the spec: compile one function body — open the
function-level Label, walk the stream once, close the function Label
(resolving any branches that target the function end). -/
def compileFn (s : List SInstr) : CState :=
  stepC (compileStream ⟨[], [⟨false, 0, []⟩]⟩ s) .blockEnd

/-- The validator's well-formedness check at open-Label depth `d`
(spec §6: streams are pre-validated): constructs balance, the stream never
closes the function Label, every branch depth is in range, and the stream
ends at depth 1. -/
def wfFrom : ℕ → List SInstr → Bool
  | d, [] => d == 1
  | d, .simple :: rest => wfFrom d rest
  | d, .blockStart :: rest => wfFrom (d + 1) rest
  | d, .loopStart :: rest => wfFrom (d + 1) rest
  | d, .blockEnd :: rest => decide (2 ≤ d) && wfFrom (d - 1) rest
  | d, .br k :: rest => decide (k < d) && wfFrom d rest

/-- Well-formedness of a function body (one open function-level Label). -/
def checkWf (s : List SInstr) : Bool := wfFrom 1 s

/-- Is an emitted instruction a branch site (resolved or pending)? -/
def isSite : MI → Bool
  | .mop => false
  | .jmp _ => true
  | .jpend => true

/-- Number of branch sites in the emitted code. -/
def siteCount : List MI → ℕ
  | [] => 0
  | m :: rest => (if isSite m then 1 else 0) + siteCount rest

/-- Number of branch instructions in a stream. -/
def brCount : List SInstr → ℕ
  | [] => 0
  | .br _ :: rest => brCount rest + 1
  | .simple :: rest => brCount rest
  | .blockStart :: rest => brCount rest
  | .loopStart :: rest => brCount rest
  | .blockEnd :: rest => brCount rest

/-- All pending branch sites of all open Labels. -/
def allPending (fs : List Frame) : List ℕ := (fs.map Frame.pending).flatten

/-- No unresolved backpatch site remains in the emitted code. -/
def noPending (c : List MI) : Bool := c.all fun m => m != MI.jpend

/-- The resolver invariant (spec §3 Label, §4.2): the pending sites of the
open Labels are exactly the unresolved branch sites of the emitted code,
each recorded exactly once, and all of them lie inside the emitted code. -/
structure InvC (st : CState) : Prop where
  nodup : (allPending st.frames).Nodup
  mem_lt : ∀ i ∈ allPending st.frames, i < st.code.length
  mem_pend : ∀ i ∈ allPending st.frames, st.code[i]? = some MI.jpend
  pend_mem : ∀ i, st.code[i]? = some MI.jpend → i ∈ allPending st.frames

theorem allPending_cons (f : Frame) (fs : List Frame) :
    allPending (f :: fs) = f.pending ++ allPending fs := rfl

theorem getElem?_append_lt {α : Type} (l₁ l₂ : List α) (i : ℕ) (h : i < l₁.length) :
    (l₁ ++ l₂)[i]? = l₁[i]? := by
  rw [List.getElem?_append, if_pos h]

/-- Appending a non-pending instruction preserves the resolver invariant. -/
theorem inv_emit (st : CState) (x : MI) (hx : x ≠ MI.jpend) (h : InvC st) :
    InvC { st with code := st.code ++ [x] } := by
  constructor
  · exact h.nodup
  · intro i hi
    have := h.mem_lt i hi
    simp only [List.length_append, List.length_cons, List.length_nil]
    omega
  · intro i hi
    rw [getElem?_append_lt _ _ _ (h.mem_lt i hi)]
    exact h.mem_pend i hi
  · intro i hi
    by_cases hl : i < st.code.length
    · rw [getElem?_append_lt _ _ _ hl] at hi
      exact h.pend_mem i hi
    · by_cases he : i = st.code.length
      · subst he
        rw [List.getElem?_concat_length] at hi
        exact absurd (Option.some.inj hi) hx
      · rw [List.getElem?_len_le (by simp; omega)] at hi
        exact absurd hi (by simp)

/-- Consing a new site onto the pending list of the Label at index `k`
permutes `allPending` to that site consed on the old `allPending`. -/
theorem allPending_set (x : ℕ) :
    ∀ (fs : List Frame) (k : ℕ) (f : Frame), fs[k]? = some f →
      (allPending (fs.set k ⟨f.isLoop, f.target, x :: f.pending⟩)).Perm
        (x :: allPending fs) := by
  intro fs
  induction fs with
  | nil => intro k f h; simp at h
  | cons g rest ih =>
      intro k f h
      cases k with
      | zero =>
          have hg : g = f := by simpa using h
          subst hg
          simp only [List.set, allPending_cons]
          exact List.Perm.refl _
      | succ k =>
          have hr : rest[k]? = some f := by simpa using h
          have hperm := ih k f hr
          simp only [List.set, allPending_cons]
          exact (List.Perm.append_left g.pending hperm).trans List.perm_middle

theorem patch_length (tgt : ℕ) :
    ∀ (sites : List ℕ) (c : List MI), (patch tgt sites c).length = c.length := by
  intro sites
  induction sites with
  | nil => intro c; rfl
  | cons s rest ih => intro c; rw [patch, ih, List.length_set]

theorem patch_getElem?_notmem (tgt : ℕ) :
    ∀ (sites : List ℕ) (cs : List MI) (i : ℕ), i ∉ sites →
      (patch tgt sites cs)[i]? = cs[i]? := by
  intro sites
  induction sites with
  | nil => intro cs i _; rfl
  | cons s rest ih =>
      intro cs i hi
      simp only [List.mem_cons, not_or] at hi
      rw [patch, ih _ _ hi.2, List.getElem?_set_ne (Ne.symm hi.1)]

theorem patch_getElem?_mem (tgt : ℕ) :
    ∀ (sites : List ℕ) (cs : List MI) (i : ℕ), sites.Nodup → i ∈ sites →
      i < cs.length → (patch tgt sites cs)[i]? = some (MI.jmp tgt) := by
  intro sites
  induction sites with
  | nil => intro cs i _ hi _; simp at hi
  | cons s rest ih =>
      intro cs i hnd hi hlen
      rw [patch]
      rcases List.mem_cons.mp hi with he | hm
      · subst he
        rw [patch_getElem?_notmem _ _ _ _ (List.nodup_cons.mp hnd).1]
        exact List.getElem?_set_self hlen
      · exact ih _ _ (List.nodup_cons.mp hnd).2 hm (by rw [List.length_set]; exact hlen)

theorem siteCount_append :
    ∀ (a b : List MI), siteCount (a ++ b) = siteCount a + siteCount b := by
  intro a
  induction a with
  | nil => intro b; simp [siteCount]
  | cons x a ih =>
      intro b
      show (if isSite x then 1 else 0) + siteCount (a ++ b)
          = ((if isSite x then 1 else 0) + siteCount a) + siteCount b
      rw [ih]
      exact (Nat.add_assoc _ _ _).symm

theorem siteCount_set_jmp :
    ∀ (cs : List MI) (i tgt : ℕ), cs[i]? = some MI.jpend →
      siteCount (cs.set i (MI.jmp tgt)) = siteCount cs := by
  intro cs
  induction cs with
  | nil => intro i tgt h; simp at h
  | cons x cs ih =>
      intro i tgt h
      cases i with
      | zero =>
          have hx : x = MI.jpend := by simpa using h
          subst hx
          simp [List.set, siteCount, isSite]
      | succ i =>
          have hr : cs[i]? = some MI.jpend := by simpa using h
          simp only [List.set, siteCount, ih i tgt hr]

theorem patch_siteCount (tgt : ℕ) :
    ∀ (sites : List ℕ) (cs : List MI), sites.Nodup →
      (∀ i ∈ sites, cs[i]? = some MI.jpend) →
      siteCount (patch tgt sites cs) = siteCount cs := by
  intro sites
  induction sites with
  | nil => intro cs _ _; rfl
  | cons s rest ih =>
      intro cs hnd hmem
      rw [patch, ih _ (List.nodup_cons.mp hnd).2, siteCount_set_jmp cs s tgt (hmem s (List.mem_cons_self s rest))]
      intro i hi
      rw [List.getElem?_set_ne]
      · exact hmem i (List.mem_cons_of_mem _ hi)
      · intro he
        exact (List.nodup_cons.mp hnd).1 (he ▸ hi)

/-- Single-pass preservation: starting from an invariant state whose
open-Label count the validator tracks, compiling a well-formed stream
preserves the invariant, ends with exactly the function-level Label open,
and emits exactly one branch site per branch instruction. -/
theorem inv_fold :
    ∀ (s : List SInstr) (st : CState),
      InvC st → wfFrom st.frames.length s = true →
      InvC (compileStream st s)
      ∧ (compileStream st s).frames.length = 1
      ∧ siteCount (compileStream st s).code = siteCount st.code + brCount s := by
  intro s
  induction s with
  | nil =>
      intro st hInv hwf
      simp only [wfFrom, beq_iff_eq] at hwf
      exact ⟨hInv, hwf, by simp [compileStream, brCount]⟩
  | cons ins rest ih =>
      intro st hInv hwf
      have hfold : compileStream st (ins :: rest) = compileStream (stepC st ins) rest := rfl
      cases ins with
      | simple =>
          rw [hfold]
          have hstep : stepC st SInstr.simple = { st with code := st.code ++ [MI.mop] } := rfl
          have hInv' : InvC (stepC st SInstr.simple) := by
            rw [hstep]; exact inv_emit st MI.mop (by simp) hInv
          have hwf' : wfFrom (stepC st SInstr.simple).frames.length rest = true := by
            rw [hstep]; simpa [wfFrom] using hwf
          obtain ⟨h1, h2, h3⟩ := ih (stepC st SInstr.simple) hInv' hwf'
          refine ⟨h1, h2, ?_⟩
          rw [h3, hstep]
          show siteCount (st.code ++ [MI.mop]) + brCount rest = _
          rw [siteCount_append]
          simp [siteCount, isSite, brCount]
      | blockStart =>
          rw [hfold]
          have hstep : stepC st SInstr.blockStart
              = { st with frames := ⟨false, 0, []⟩ :: st.frames } := rfl
          have hall : allPending (stepC st SInstr.blockStart).frames = allPending st.frames := by
            rw [hstep]; simp [allPending_cons]
          have hInv' : InvC (stepC st SInstr.blockStart) := by
            constructor
            · rw [hall]; exact hInv.nodup
            · intro i hi; rw [hall] at hi; exact hInv.mem_lt i hi
            · intro i hi; rw [hall] at hi; exact hInv.mem_pend i hi
            · intro i hp; rw [hall]; exact hInv.pend_mem i hp
          have hwf' : wfFrom (stepC st SInstr.blockStart).frames.length rest = true := by
            rw [hstep]; simpa [wfFrom] using hwf
          obtain ⟨h1, h2, h3⟩ := ih _ hInv' hwf'
          exact ⟨h1, h2, by rw [h3, hstep]; simp [brCount]⟩
      | loopStart =>
          rw [hfold]
          have hstep : stepC st SInstr.loopStart
              = { st with frames := ⟨true, st.code.length, []⟩ :: st.frames } := rfl
          have hall : allPending (stepC st SInstr.loopStart).frames = allPending st.frames := by
            rw [hstep]; simp [allPending_cons]
          have hInv' : InvC (stepC st SInstr.loopStart) := by
            constructor
            · rw [hall]; exact hInv.nodup
            · intro i hi; rw [hall] at hi; exact hInv.mem_lt i hi
            · intro i hi; rw [hall] at hi; exact hInv.mem_pend i hi
            · intro i hp; rw [hall]; exact hInv.pend_mem i hp
          have hwf' : wfFrom (stepC st SInstr.loopStart).frames.length rest = true := by
            rw [hstep]; simpa [wfFrom] using hwf
          obtain ⟨h1, h2, h3⟩ := ih _ hInv' hwf'
          exact ⟨h1, h2, by rw [h3, hstep]; simp [brCount]⟩
      | br k =>
          rw [hfold]
          simp only [wfFrom, Bool.and_eq_true, decide_eq_true_eq] at hwf
          obtain ⟨hk, hwf2⟩ := hwf
          have hf : st.frames[k]? = some st.frames[k] := List.getElem?_eq_getElem hk
          cases hL : (st.frames[k]).isLoop with
          | true =>
              have hstep : stepC st (SInstr.br k)
                  = { st with code := st.code ++ [MI.jmp (st.frames[k]).target] } := by
                simp [stepC, hf, hL]
              have hInv' : InvC (stepC st (SInstr.br k)) := by
                rw [hstep]; exact inv_emit st _ (by simp) hInv
              have hwf' : wfFrom (stepC st (SInstr.br k)).frames.length rest = true := by
                rw [hstep]; exact hwf2
              obtain ⟨h1, h2, h3⟩ := ih _ hInv' hwf'
              refine ⟨h1, h2, ?_⟩
              rw [h3, hstep]
              show siteCount (st.code ++ [MI.jmp _]) + brCount rest = _
              rw [siteCount_append]
              simp [siteCount, isSite, brCount]
              omega
          | false =>
              have hstep : stepC st (SInstr.br k)
                  = { code := st.code ++ [MI.jpend],
                      frames := st.frames.set k
                        ⟨(st.frames[k]).isLoop, (st.frames[k]).target,
                          st.code.length :: (st.frames[k]).pending⟩ } := by
                simp [stepC, hf, hL]
              have hperm := allPending_set st.code.length st.frames k (st.frames[k]) hf
              have hnotmem : st.code.length ∉ allPending st.frames := by
                intro hmem
                exact absurd (hInv.mem_lt _ hmem) (Nat.lt_irrefl _)
              have hInv' : InvC (stepC st (SInstr.br k)) := by
                rw [hstep]
                constructor
                · rw [hperm.nodup_iff]
                  exact List.nodup_cons.mpr ⟨hnotmem, hInv.nodup⟩
                · intro i hi
                  rcases List.mem_cons.mp (hperm.mem_iff.mp hi) with he | hm
                  · subst he; simp
                  · have := hInv.mem_lt i hm
                    simp only [List.length_append, List.length_cons, List.length_nil]
                    omega
                · intro i hi
                  rcases List.mem_cons.mp (hperm.mem_iff.mp hi) with he | hm
                  · subst he; exact List.getElem?_concat_length _ _
                  · rw [getElem?_append_lt _ _ _ (hInv.mem_lt i hm)]
                    exact hInv.mem_pend i hm
                · intro i hp
                  by_cases hl : i < st.code.length
                  · rw [getElem?_append_lt _ _ _ hl] at hp
                    exact hperm.mem_iff.mpr (List.mem_cons_of_mem _ (hInv.pend_mem i hp))
                  · by_cases he : i = st.code.length
                    · subst he
                      exact hperm.mem_iff.mpr (List.mem_cons_self _ _)
                    · rw [List.getElem?_len_le (by simp; omega)] at hp
                      exact absurd hp (by simp)
              have hwf' : wfFrom (stepC st (SInstr.br k)).frames.length rest = true := by
                rw [hstep]
                show wfFrom (st.frames.set k _).length rest = true
                rw [List.length_set]
                exact hwf2
              obtain ⟨h1, h2, h3⟩ := ih _ hInv' hwf'
              refine ⟨h1, h2, ?_⟩
              rw [h3, hstep]
              show siteCount (st.code ++ [MI.jpend]) + brCount rest = _
              rw [siteCount_append]
              simp [siteCount, isSite, brCount]
              omega
      | blockEnd =>
          rw [hfold]
          simp only [wfFrom, Bool.and_eq_true, decide_eq_true_eq] at hwf
          obtain ⟨hd2, hwf2⟩ := hwf
          cases hfr : st.frames with
          | nil => rw [hfr] at hd2; simp at hd2
          | cons F rest0 =>
              have hstep : stepC st SInstr.blockEnd
                  = { code := patch st.code.length F.pending st.code, frames := rest0 } := by
                simp [stepC, hfr]
              have hall : allPending st.frames = F.pending ++ allPending rest0 := by
                rw [hfr, allPending_cons]
              have hnodup := hInv.nodup
              rw [hall] at hnodup
              obtain ⟨pnd, rnd, disj⟩ := List.nodup_append.mp hnodup
              have hmem_lt : ∀ i ∈ F.pending ++ allPending rest0, i < st.code.length := by
                intro i hi; apply hInv.mem_lt; rw [hall]; exact hi
              have hmem_pend : ∀ i ∈ F.pending ++ allPending rest0,
                  st.code[i]? = some MI.jpend := by
                intro i hi; apply hInv.mem_pend; rw [hall]; exact hi
              have hInv' : InvC (stepC st SInstr.blockEnd) := by
                rw [hstep]
                constructor
                · exact rnd
                · intro i hi
                  show i < (patch st.code.length F.pending st.code).length
                  rw [patch_length]
                  exact hmem_lt i (List.mem_append_right _ hi)
                · intro i hi
                  have hnF : i ∉ F.pending := fun hF => disj hF hi
                  show (patch st.code.length F.pending st.code)[i]? = some MI.jpend
                  rw [patch_getElem?_notmem _ _ _ _ hnF]
                  exact hmem_pend i (List.mem_append_right _ hi)
                · intro i hp
                  by_cases hiF : i ∈ F.pending
                  · rw [patch_getElem?_mem _ _ _ _ pnd hiF
                        (hmem_lt i (List.mem_append_left _ hiF))] at hp
                    exact absurd (Option.some.inj hp) (by simp)
                  · rw [patch_getElem?_notmem _ _ _ _ hiF] at hp
                    have := hInv.pend_mem i hp
                    rw [hall] at this
                    rcases List.mem_append.mp this with hF | hR
                    · exact absurd hF hiF
                    · exact hR
              have hlen0 : rest0.length + 1 = st.frames.length := by rw [hfr]; rfl
              have hwf' : wfFrom (stepC st SInstr.blockEnd).frames.length rest = true := by
                rw [hstep]
                show wfFrom rest0.length rest = true
                have : rest0.length = st.frames.length - 1 := by omega
                rw [this]
                exact hwf2
              obtain ⟨h1, h2, h3⟩ := ih _ hInv' hwf'
              refine ⟨h1, h2, ?_⟩
              rw [h3, hstep]
              show siteCount (patch st.code.length F.pending st.code) + brCount rest = _
              rw [patch_siteCount _ _ _ pnd
                  (fun i hi => hmem_pend i (List.mem_append_left _ hi))]
              simp [brCount]

/-- A concrete well-formed stream exercising block, loop, forward and
backward branches, and a branch to the function-level Label. -/
def wfExampleStream : List SInstr :=
  [SInstr.blockStart, SInstr.simple, SInstr.br 0, SInstr.blockEnd,
   SInstr.loopStart, SInstr.br 0, SInstr.blockEnd, SInstr.br 0, SInstr.simple]

/-- C7: for every pre-validated instruction stream at any structured-control
nesting depth, single-pass compilation resolves every branch's target Label
exactly once — the compiled code carries exactly one (resolved) jump site
per branch instruction — and at the end of function compilation no open
Label and no pending backpatch site remains unresolved. -/
theorem claim_branch_resolution (s : List SInstr) (h : checkWf s = true) :
    (compileFn s).frames = []
    ∧ noPending (compileFn s).code = true
    ∧ siteCount (compileFn s).code = brCount s := by
  have hInv0 : InvC ⟨[], [⟨false, 0, []⟩]⟩ := by
    constructor
    · simp [allPending]
    · intro i hi; simp [allPending] at hi
    · intro i hi; simp [allPending] at hi
    · intro i hp; simp at hp
  obtain ⟨hI, hlen, hcnt⟩ := inv_fold s ⟨[], [⟨false, 0, []⟩]⟩ hInv0 h
  set st1 := compileStream ⟨[], [⟨false, 0, []⟩]⟩ s with hst1
  cases hfr : st1.frames with
  | nil => rw [hfr] at hlen; simp at hlen
  | cons F rest0 =>
      have hrest0 : rest0 = [] := by
        have hx := hlen
        rw [hfr] at hx
        simpa using hx
      subst hrest0
      have hstep : compileFn s = CState.mk (patch st1.code.length F.pending st1.code) [] := by
        show stepC st1 SInstr.blockEnd = _
        simp [stepC, hfr]
      have hall : allPending st1.frames = F.pending := by
        rw [hfr, allPending_cons]
        simp [allPending]
      have pnd : F.pending.Nodup := by
        have hx := hI.nodup; rw [hall] at hx; exact hx
      have hmlt : ∀ i ∈ F.pending, i < st1.code.length := by
        intro i hi; apply hI.mem_lt; rw [hall]; exact hi
      have hmp : ∀ i ∈ F.pending, st1.code[i]? = some MI.jpend := by
        intro i hi; apply hI.mem_pend; rw [hall]; exact hi
      refine ⟨by rw [hstep], ?_, ?_⟩
      · rw [hstep]
        show (patch st1.code.length F.pending st1.code).all (fun m => m != MI.jpend) = true
        apply List.all_eq_true.mpr
        intro x hx
        rcases List.mem_iff_getElem?.mp hx with ⟨n, hn⟩
        by_cases hxp : x = MI.jpend
        · subst hxp
          by_cases hnF : n ∈ F.pending
          · rw [patch_getElem?_mem _ _ _ _ pnd hnF (hmlt n hnF)] at hn
            exact absurd (Option.some.inj hn) (by simp)
          · rw [patch_getElem?_notmem _ _ _ _ hnF] at hn
            have hy := hI.pend_mem n hn
            rw [hall] at hy
            exact absurd hy hnF
        · simp [hxp]
      · rw [hstep]
        show siteCount (patch st1.code.length F.pending st1.code) = brCount s
        rw [patch_siteCount _ _ _ pnd hmp]
        simpa [siteCount] using hcnt

/-- Witness for the branch-resolution claim: the concrete stream is
well-formed and compiling it leaves no open Label and no pending site. -/
theorem claim_branch_resolution_witness :
    checkWf wfExampleStream = true
    ∧ ((compileFn wfExampleStream).frames = []
        ∧ noPending (compileFn wfExampleStream).code = true
        ∧ siteCount (compileFn wfExampleStream).code = brCount wfExampleStream) :=
  ⟨by decide, claim_branch_resolution wfExampleStream (by decide)⟩

/-! ## Instantiation and LinkError (spec §4.5, §6, §7)

Modelled from the spec (the engine's instantiation machinery is not under
`src/`; `src/lib/c-api/src/wasm_c_api/mod.rs` only documents the
module/instance entry points): `instantiate(Module, imports)` matches each
declared import against the host-supplied object by signature; any
mismatch aborts instantiation with a typed LinkError, and the result type
makes failure atomic — an Instance exists only when every import matched.
The Module is never mutated (instantiation is a pure function of it). -/

/-- A value type of the format's type system. -/
inductive VType where
  | i32
  | f32
  | f64
deriving DecidableEq

/-- A function signature: parameter and result types. -/
structure FuncSig where
  params : List VType
  results : List VType
deriving DecidableEq

/-- A Module (spec §3): compiled functions plus declared import
signatures (exports are irrelevant to the import-matching claim). -/
structure ModuleM where
  importSigs : List FuncSig
  funcs : List CompiledFn
deriving DecidableEq

/-- A typed LinkError (spec §7): import-count mismatch or a signature
mismatch at a specific import index. -/
inductive LinkError where
  | importCountMismatch (expected got : ℕ)
  | importSigMismatch (index : ℕ) (expected got : FuncSig)
deriving DecidableEq

/-- An Instance (spec §3): a Module bound to its concrete imports. -/
structure InstanceM where
  module : ModuleM
  boundImports : List FuncSig
deriving DecidableEq

/-- Match the declared import signatures against the host-supplied ones,
reporting the first mismatch as a typed LinkError. -/
def linkImports (i : ℕ) : List FuncSig → List FuncSig → Except LinkError Unit
  | [], [] => .ok ()
  | [], g :: gs => .error (.importCountMismatch i (i + (g :: gs).length))
  | e :: es, [] => .error (.importCountMismatch (i + (e :: es).length) i)
  | e :: es, g :: gs =>
      if e = g then linkImports (i + 1) es gs
      else .error (.importSigMismatch i e g)

/-- Modelled from the spec: `instantiate(Module, imports)` — bind a Module
to host-supplied imports, failing with a typed LinkError on any signature
mismatch, atomically (the Instance is only constructed after every import
matched; the Module itself is untouched). -/
def instantiate (m : ModuleM) (imps : List FuncSig) : Except LinkError InstanceM :=
  match linkImports 0 m.importSigs imps with
  | .error e => .error e
  | .ok _ => .ok ⟨m, imps⟩

/-- Import matching succeeds exactly when the signature lists coincide. -/
theorem linkImports_ok_iff :
    ∀ (es gs : List FuncSig) (i : ℕ), linkImports i es gs = .ok () ↔ es = gs := by
  intro es
  induction es with
  | nil =>
      intro gs i
      cases gs with
      | nil => simp [linkImports]
      | cons g gs => simp [linkImports]
  | cons e es ih =>
      intro gs i
      cases gs with
      | nil => simp [linkImports]
      | cons g gs =>
          by_cases he : e = g
          · subst he
            simp [linkImports, ih]
          · simp [linkImports, he]

/-! ## The claims -/

/-- C1: for every supported floating-point opcode (arithmetic binop,
comparison, rounding/sqrt unop, and f32.demote_f64) and every operand in
the numeric domain — NaN payloads, signed zeros and subnormals included —
the function compiled in Soft-Float Emulation Mode returns exactly the
native SSE2 reference operation applied to the same operands. -/
theorem claim_softfloat_mode_equivalence :
    (∀ (b : FBinop) (x y : F64),
        runCompiled softImpl (compileStraight 0 (binProg b)) [Val.f64 x, Val.f64 y]
          = .ok [Val.f64 (nativeImpl.binop b x y)])
    ∧ (∀ (cp : FCmpop) (x y : F64),
        runCompiled softImpl (compileStraight 0 (cmpProg cp)) [Val.f64 x, Val.f64 y]
          = .ok [Val.i32 (nativeImpl.cmpop cp x y)])
    ∧ (∀ (u : FUnop) (x : F64),
        runCompiled softImpl (compileStraight 0 (unProg u)) [Val.f64 x]
          = .ok [Val.f64 (nativeImpl.unop u x)])
    ∧ (∀ x : F64,
        runCompiled softImpl (compileStraight 0 demoteProg) [Val.f64 x]
          = .ok [Val.f32 (nativeImpl.demote x)]) := by
  refine ⟨?_, ?_, ?_, ?_⟩
  · intro b x y
    simp [runCompiled, compileStraight, binProg, runFrom, evalOp, softImpl, nativeImpl,
      softBin_eq_nativeBin]
  · intro cp x y
    simp [runCompiled, compileStraight, cmpProg, runFrom, evalOp, softImpl, nativeImpl,
      softCmp_eq_nativeCmp]
  · intro u x
    simp [runCompiled, compileStraight, unProg, runFrom, evalOp, softImpl, nativeImpl,
      softUn_eq_nativeUn]
  · intro x
    simp [runCompiled, compileStraight, demoteProg, runFrom, evalOp, softImpl, nativeImpl,
      soft_demote_eq]

/-- C2: the compiled `add` function (f64.add over its two f64 locals)
called with (1.0, 2.0) returns exactly 3.0, identically in the
native-float mode and in the soft-float emulation mode. -/
theorem claim_add_two_locals :
    runCompiled nativeImpl (compileStraight 0 (toOps addTree))
        [Val.f64 (ofN 1), Val.f64 (ofN 2)] = .ok [Val.f64 (ofN 3)]
    ∧ runCompiled softImpl (compileStraight 0 (toOps addTree))
        [Val.f64 (ofN 1), Val.f64 (ofN 2)] = .ok [Val.f64 (ofN 3)] :=
  ⟨by rfl, by rfl⟩

/-- C3: each of the two compiled twenty-parameter sums (`add20`,
tree-associated, and `add20r`, right-associated) returns exactly what the
reference interpreter returns for its own association order, on every
argument list, in either float mode and at every code placement. -/
theorem claim_add20_each_matches_reference (impl : FloatImpl) (base : ℕ) (args : List F64) :
    observe (runCompiled impl (compileStraight base (toOps add20Tree)) (args.map Val.f64))
      = (evalExpr impl args add20Tree).map (fun v => [Val.f64 v])
    ∧ observe (runCompiled impl (compileStraight base (toOps add20rTree)) (args.map Val.f64))
      = (evalExpr impl args add20rTree).map (fun v => [Val.f64 v]) :=
  ⟨compiled_expr_correct impl base args add20Tree,
   compiled_expr_correct impl base args add20rTree⟩

/-- C4: calling the compiled `div` function with a zero divisor local
never produces a trap — the call succeeds for every dividend and either
sign of zero — and 1.0 / +0.0 returns exactly +infinity, in both float
modes. -/
theorem claim_f64_div_zero_no_trap :
    (∀ (x : F64) (s : Bool),
        isOkE (runCompiled nativeImpl (compileStraight 0 (binProg FBinop.div))
          [Val.f64 x, Val.f64 (F64.zero s)]) = true
      ∧ isOkE (runCompiled softImpl (compileStraight 0 (binProg FBinop.div))
          [Val.f64 x, Val.f64 (F64.zero s)]) = true)
    ∧ runCompiled nativeImpl (compileStraight 0 (binProg FBinop.div))
        [Val.f64 (ofN 1), Val.f64 (F64.zero false)] = .ok [Val.f64 (F64.inf false)]
    ∧ runCompiled softImpl (compileStraight 0 (binProg FBinop.div))
        [Val.f64 (ofN 1), Val.f64 (F64.zero false)] = .ok [Val.f64 (F64.inf false)] := by
  refine ⟨?_, by rfl, by rfl⟩
  intro x s
  constructor <;> simp [runCompiled, compileStraight, binProg, runFrom, evalOp, isOkE]

/-- C5: calling a compiled function that performs an integer division by a
zero divisor local produces a divide-by-zero trap whose recorded offset is
the code offset of the generated division instruction, which the Trap
Sites of the Compiled Function list under exactly that offset — at every
code placement `base` and for every dividend. -/
theorem claim_i32_div_zero_trap (base x : ℕ) :
    runCompiled nativeImpl (compileStraight base intDivProg) [Val.i32 x, Val.i32 0]
      = .error ⟨TrapKind.divByZero, base + 2⟩
    ∧ (base + 2, TrapKind.divByZero) ∈ (compileStraight base intDivProg).trapSites
    ∧ (compileStraight base intDivProg).code[2]? = some (MInstr.op Op.i32divU) := by
  refine ⟨?_, ?_, by rfl⟩
  · show runFrom nativeImpl _ _ base [] = _
    simp [intDivProg, runFrom, evalOp]
  · show (base + 2, TrapKind.divByZero) ∈ trapSitesFrom base intDivProg
    simp [intDivProg, trapSitesFrom]

/-- C6: instantiating a Module against host imports whose signatures do
not match its declared imports fails with a typed LinkError, atomically —
no Instance value is ever produced from a failing instantiation — and the
Module itself is unchanged and remains usable: the same Module
instantiates successfully against any matching import list. -/
theorem claim_link_error_atomic (m : ModuleM) (imps : List FuncSig)
    (h : m.importSigs ≠ imps) :
    (∃ e : LinkError, instantiate m imps = .error e)
    ∧ (∀ inst : InstanceM, instantiate m imps ≠ .ok inst)
    ∧ (∀ imps2 : List FuncSig, m.importSigs = imps2 →
        instantiate m imps2 = .ok ⟨m, imps2⟩) := by
  have hlink : linkImports 0 m.importSigs imps ≠ .ok () := by
    intro hok
    exact h ((linkImports_ok_iff _ _ 0).mp hok)
  refine ⟨?_, ?_, ?_⟩
  · cases hl : linkImports 0 m.importSigs imps with
    | error e => exact ⟨e, by simp [instantiate, hl]⟩
    | ok u => cases u; exact absurd hl hlink
  · intro inst hok
    cases hl : linkImports 0 m.importSigs imps with
    | error e => simp [instantiate, hl] at hok
    | ok u => cases u; exact hlink hl
  · intro imps2 he
    have hok : linkImports 0 m.importSigs imps2 = .ok () := (linkImports_ok_iff _ _ 0).mpr he
    simp [instantiate, hok]

/-- Witness for the LinkError claim: a module declaring one f64→f64 import,
instantiated with no imports, fails and stays reusable. -/
theorem claim_link_error_atomic_witness :
    ((⟨[⟨[VType.f64], [VType.f64]⟩], []⟩ : ModuleM).importSigs ≠ ([] : List FuncSig))
    ∧ ((∃ e : LinkError,
          instantiate ⟨[⟨[VType.f64], [VType.f64]⟩], []⟩ [] = .error e)
        ∧ (∀ inst : InstanceM,
            instantiate ⟨[⟨[VType.f64], [VType.f64]⟩], []⟩ [] ≠ .ok inst)
        ∧ (∀ imps2 : List FuncSig,
            (⟨[⟨[VType.f64], [VType.f64]⟩], []⟩ : ModuleM).importSigs = imps2 →
              instantiate ⟨[⟨[VType.f64], [VType.f64]⟩], []⟩ imps2
                = .ok ⟨⟨[⟨[VType.f64], [VType.f64]⟩], []⟩, imps2⟩)) :=
  ⟨by decide, claim_link_error_atomic ⟨[⟨[VType.f64], [VType.f64]⟩], []⟩ [] (by decide)⟩

/-- C8: compilation is deterministic up to observable behaviour — two
compilations of the same instruction stream, even at different code
placements, yield Compiled Functions with the same observable call results
on every argument list (only the layout-dependent trap offsets may differ). -/
theorem claim_compile_deterministic (impl : FloatImpl) (b1 b2 : ℕ) (prog : List Op)
    (args : List Val) :
    observe (runCompiled impl (compileStraight b1 prog) args)
      = observe (runCompiled impl (compileStraight b2 prog) args) := by
  show observe (runFrom impl args (prog.map MInstr.op) b1 [])
      = observe (runFrom impl args (prog.map MInstr.op) b2 [])
  rw [observe_runFrom, observe_runFrom]

/-- C9: on the concrete arguments 1.0 .. 20.0 the two association orders
coincide — both the tree-associated `add20` and the right-associated
`add20r` compiled functions return exactly 210.0 (every partial sum is an
integer below 2^53, hence exact), in both float modes. -/
theorem claim_add20_both_orders_210 :
    runCompiled nativeImpl (compileStraight 0 (toOps add20Tree)) (args1to20.map Val.f64)
      = .ok [Val.f64 (ofN 210)]
    ∧ runCompiled nativeImpl (compileStraight 0 (toOps add20rTree)) (args1to20.map Val.f64)
      = .ok [Val.f64 (ofN 210)]
    ∧ runCompiled softImpl (compileStraight 0 (toOps add20Tree)) (args1to20.map Val.f64)
      = .ok [Val.f64 (ofN 210)]
    ∧ runCompiled softImpl (compileStraight 0 (toOps add20rTree)) (args1to20.map Val.f64)
      = .ok [Val.f64 (ofN 210)] :=
  ⟨by rfl, by rfl, by rfl, by rfl⟩

/-- C10: the reference semantics of the example's `max`/`min` is the SSE2
MAXPD/MINPD second-operand rule, not the NaN-propagating symmetric IEEE
maximum: whenever at least one operand is NaN, both `_max_f64 x y` and
`_min_f64 x y` return the second operand `y` — so `_max_f64 NaN y = y`
while `_max_f64 x NaN` is that NaN. -/
theorem claim_minmax_nan_second_operand (x y : F64)
    (h : x.isNaN = true ∨ y.isNaN = true) :
    _max_f64 x y = y ∧ _min_f64 x y = y := by
  have hb : (x.isNaN || y.isNaN) = true := by rcases h with h | h <;> simp [h]
  have hgt : fltB y x = false :=
    fltB_nan_false y x (by rcases h with h | h <;> simp [h])
  have hlt : fltB x y = false := fltB_nan_false x y hb
  exact ⟨by simp [_max_f64, fgtB, hgt], by simp [_min_f64, hlt]⟩

/-- Witness for the max/min NaN claim at a concrete NaN first operand. -/
theorem claim_minmax_nan_second_operand_witness :
    ((F64.nan false 5).isNaN = true ∨ (ofN 1).isNaN = true)
    ∧ (_max_f64 (F64.nan false 5) (ofN 1) = ofN 1
        ∧ _min_f64 (F64.nan false 5) (ofN 1) = ofN 1) :=
  ⟨Or.inl (by decide),
   claim_minmax_nan_second_operand (F64.nan false 5) (ofN 1) (Or.inl (by decide))⟩
